import Mathlib

/-!
Verification of the sparse coordinate map abstraction in src/map.rs
(generic `Map<C, T>` container: point operations, extent computation,
predicate search, 2-D/1-D text reading and rendering).

The Rust `HashMap<C, T>` backing store is embedded as an association list
with unique keys: `HashMap::get` is first-match lookup, `HashMap::insert`
replaces the binding in place (appending when absent), `HashMap::remove`
drops the binding.  All observable results proved here (lookups, extents,
search results up to the unspecified iteration order) are insensitive to
the bucket order a real hash map would exhibit.
-/

namespace Aoc

/-- Association-list lookup, embedding `HashMap::get`. -/
def lookupKV {C T : Type} [DecidableEq C] : List (C × T) → C → Option T
  | [], _ => none
  | kv :: rest, c => if kv.1 = c then some kv.2 else lookupKV rest c

/-- Association-list insert-or-replace, embedding `HashMap::insert`. -/
def setKey {C T : Type} [DecidableEq C] : List (C × T) → C → T → List (C × T)
  | [], c, v => [(c, v)]
  | kv :: rest, c, v => if kv.1 = c then (c, v) :: rest else kv :: setKey rest c v

/-- Association-list removal, embedding `HashMap::remove`. -/
def removeKey {C T : Type} [DecidableEq C] : List (C × T) → C → List (C × T)
  | [], _ => []
  | kv :: rest, c => if kv.1 = c then removeKey rest c else kv :: removeKey rest c

/-- The `MapCoordinate` trait: a coordinate type contributes its extent
computation over a collection of keys (src/map.rs lines 10-12). -/
class MapCoordinate (C : Type) where
  get_extent : List C → C

/-- `impl MapCoordinate for usize`: `keys.max().map(|s| s + 1).unwrap_or(0)`
(src/map.rs lines 14-18). -/
def usizeGetExtent (keys : List Nat) : Nat :=
  match keys.max? with
  | some s => s + 1
  | none => 0

/-- `impl MapCoordinate for (usize, usize)`: running per-axis fold of
`max(acc, k + 1)` starting from `(0, 0)` (src/map.rs lines 20-31). -/
def pairGetExtent (keys : List (Nat × Nat)) : Nat × Nat :=
  keys.foldl (fun acc k => (Nat.max acc.1 (k.1 + 1), Nat.max acc.2 (k.2 + 1))) (0, 0)

instance : MapCoordinate Nat := ⟨usizeGetExtent⟩

instance : MapCoordinate (Nat × Nat) := ⟨pairGetExtent⟩

/-- The `MapError` enum: the single variant wraps an underlying I/O error
(src/map.rs lines 33-37).  The I/O error payload is abstracted as a string. -/
inductive MapError : Type where
  | ioErr (source : String) : MapError
deriving DecidableEq

/-- The `Map<C, T>` struct: sparse entries plus an optional fixed extent
(src/map.rs lines 41-45). -/
structure Map (C T : Type) where
  data : List (C × T)
  fixed_extent : Option C
deriving DecidableEq

/-- `Map::new` (src/map.rs lines 48-53). -/
def Map.new {C T : Type} : Map C T :=
  { data := [], fixed_extent := none }

/-- `Map::get` (src/map.rs lines 56-58). -/
def Map.get {C T : Type} [DecidableEq C] (m : Map C T) (coord : C) : Option T :=
  lookupKV m.data coord

/-- `Map::set` (src/map.rs lines 61-63). -/
def Map.set {C T : Type} [DecidableEq C] (m : Map C T) (coord : C) (value : T) : Map C T :=
  { m with data := setKey m.data coord value }

/-- `Map::remove` (src/map.rs lines 66-68). -/
def Map.remove {C T : Type} [DecidableEq C] (m : Map C T) (coord : C) : Map C T :=
  { m with data := removeKey m.data coord }

/-- `Map::get_extent`: the fixed extent verbatim when set, otherwise the
coordinate type's extent of the current keys (src/map.rs lines 71-77). -/
def Map.get_extent {C T : Type} [MapCoordinate C] (m : Map C T) : C :=
  match m.fixed_extent with
  | some e => e
  | none => MapCoordinate.get_extent (m.data.map Prod.fst)

/-- Loop body of `Map::find_all_where`: push every coordinate whose entry
satisfies the predicate, in iteration order (src/map.rs lines 80-88). -/
def findAllWhereKV {C T : Type} (p : C → T → Bool) : List (C × T) → List C
  | [] => []
  | kv :: rest =>
    if p kv.1 kv.2 then kv.1 :: findAllWhereKV p rest else findAllWhereKV p rest

/-- `Map::find_all_where` (src/map.rs lines 80-88). -/
def Map.find_all_where {C T : Type} (m : Map C T) (p : C → T → Bool) : List C :=
  findAllWhereKV p m.data

/-- Loop body of `Map::find_one_where`: return the first coordinate whose
entry satisfies the predicate (src/map.rs lines 91-98). -/
def findOneWhereKV {C T : Type} (p : C → T → Bool) : List (C × T) → Option C
  | [] => none
  | kv :: rest => if p kv.1 kv.2 then some kv.1 else findOneWhereKV p rest

/-- `Map::find_one_where` (src/map.rs lines 91-98). -/
def Map.find_one_where {C T : Type} (m : Map C T) (p : C → T → Bool) : Option C :=
  findOneWhereKV p m.data

/-- `Map::find_all`: equality with a pattern as the predicate
(src/map.rs lines 103-105). -/
def Map.find_all {C T : Type} [DecidableEq T] (m : Map C T) (pattern : T) : List C :=
  m.find_all_where (fun _ t => decide (t = pattern))

/-- `Map::find_one`: equality with a pattern as the predicate
(src/map.rs lines 108-110). -/
def Map.find_one {C T : Type} [DecidableEq T] (m : Map C T) (pattern : T) : Option C :=
  m.find_one_where (fun _ t => decide (t = pattern))

/-- `Map::<usize, T>::read` body: enumerate the characters of the blob,
inserting `(index, tile)` exactly when `T::from_char` yields a tile
(src/map.rs lines 123-127). -/
def read1Chars {T : Type} (fc : Char → Option T) : List Char → Nat → List (Nat × T)
  | [], _ => []
  | c :: rest, i =>
    match fc c with
    | some t => (i, t) :: read1Chars fc rest (i + 1)
    | none => read1Chars fc rest (i + 1)

/-- `Map::<usize, T>::read` on an in-memory character stream
(src/map.rs lines 115-133; the I/O never fails on a memory buffer). -/
def read1 {T : Type} (fc : Char → Option T) (s : List Char) : Map Nat T :=
  { data := read1Chars fc s 0, fixed_extent := none }

/-- Strip one carriage return from the head of a REVERSED line accumulator,
matching the CRLF trimming of Rust's `BufRead::lines`. -/
def stripCR : List Char → List Char
  | '\r' :: rest => rest
  | l => l

/-- Accumulating worker for `BufRead::lines`: `cur` holds the current line
reversed; a newline emits the line (with a trailing CR trimmed); input
ending right after a newline emits no further line. -/
def linesGo : List Char → List Char → List (List Char)
  | cur, [] => [cur.reverse]
  | cur, '\n' :: [] => [(stripCR cur).reverse]
  | cur, '\n' :: rest => (stripCR cur).reverse :: linesGo [] rest
  | cur, c :: rest => linesGo (c :: cur) rest

/-- Rust's `BufRead::lines` on an in-memory character stream: splits on
newline, trims CRLF, yields nothing for empty input, and yields no empty
final line for input ending in a newline. -/
def rustLines : List Char → List (List Char)
  | [] => []
  | cs => linesGo [] cs

/-- Inner loop of `Map::<(usize, usize), T>::read`: enumerate one line's
characters, inserting `((i, j), tile)` when `T::from_char` yields a tile
(src/map.rs lines 166-170). -/
def readLineChars {T : Type} (fc : Char → Option T) (i : Nat) :
    List Char → Nat → List ((Nat × Nat) × T)
  | [], _ => []
  | c :: rest, j =>
    match fc c with
    | some t => ((i, j), t) :: readLineChars fc i rest (j + 1)
    | none => readLineChars fc i rest (j + 1)

/-- Outer loop of `Map::<(usize, usize), T>::read`: enumerate the lines
(src/map.rs lines 165-171). -/
def readLinesKV {T : Type} (fc : Char → Option T) :
    List (List Char) → Nat → List ((Nat × Nat) × T)
  | [], _ => []
  | l :: rest, i => readLineChars fc i l 0 ++ readLinesKV fc rest (i + 1)

/-- `Map::<(usize, usize), T>::read` on an in-memory character stream
(src/map.rs lines 161-177). -/
def read2 {T : Type} (fc : Char → Option T) (s : List Char) : Map (Nat × Nat) T :=
  { data := readLinesKV fc (rustLines s) 0, fixed_extent := none }

/-- Outer loop of the 2-D `read` over a stream whose line reads may fail:
the first I/O error aborts the whole read, wrapped in `MapError::Io` via
the `?` operator (src/map.rs line 166, `line.context(Io)?`). -/
def readLinesE {T : Type} (fc : Char → Option T) :
    List (Except String (List Char)) → Nat → Except MapError (List ((Nat × Nat) × T))
  | [], _ => Except.ok []
  | Except.error e :: _, _ => Except.error (MapError.ioErr e)
  | Except.ok l :: rest, i =>
    match readLinesE fc rest (i + 1) with
    | Except.ok kvs => Except.ok (readLineChars fc i l 0 ++ kvs)
    | Except.error err => Except.error err

/-- `Map::<(usize, usize), T>::read` over a fallible line stream: returns a
map only when every line was read successfully (src/map.rs lines 161-177). -/
def read2E {T : Type} (fc : Char → Option T)
    (lns : List (Except String (List Char))) : Except MapError (Map (Nat × Nat) T) :=
  match readLinesE fc lns 0 with
  | Except.ok d => Except.ok { data := d, fixed_extent := none }
  | Except.error e => Except.error e

/-- `Map::<usize, T>::to_vecs` (src/map.rs lines 135-138). -/
def Map.to_vecs1 {T : Type} (m : Map Nat T) : List (Option T) :=
  (List.range m.get_extent).map (fun i => m.get i)

/-- `Map::<(usize, usize), T>::to_vecs` (src/map.rs lines 179-189). -/
def Map.to_vecs2 {T : Type} (m : Map (Nat × Nat) T) : List (List (Option T)) :=
  (List.range m.get_extent.1).map (fun i =>
    (List.range m.get_extent.2).map (fun j => m.get (i, j)))

/-- One rendered cell: the tile's display output, or a single space for an
absent coordinate (src/map.rs lines 149-152 and 202-205). -/
def renderCell {T : Type} (showTile : T → List Char) : Option T → List Char
  | some t => showTile t
  | none => [' ']

/-- `impl Display for Map<usize, T>`: empty data renders as nothing;
otherwise one pass over `0..extent` with spaces for absent cells
(src/map.rs lines 141-157). -/
def Map.render1 {T : Type} (m : Map Nat T) (showTile : T → List Char) : List Char :=
  if m.data.isEmpty then []
  else ((List.range m.get_extent).map (fun i => renderCell showTile (m.get i))).flatten

/-- `impl Display for Map<(usize, usize), T>`: empty data renders as
nothing; otherwise row-major over the extent, a newline after every row
(src/map.rs lines 192-212). -/
def Map.render2 {T : Type} (m : Map (Nat × Nat) T) (showTile : T → List Char) : List Char :=
  if m.data.isEmpty then []
  else ((List.range m.get_extent.1).map (fun i =>
    ((List.range m.get_extent.2).map (fun j =>
      renderCell showTile (m.get (i, j)))).flatten ++ ['\n'])).flatten

/-- The test suite's `TestTile` decoder: space is no tile, any other
character is a tile carrying itself (src/map.rs lines 228-235). -/
def testFromChar (c : Char) : Option Char :=
  if c = ' ' then none else some c

/-- The test suite's `TestTile` display: the carried character itself
(src/map.rs lines 237-241). -/
def testShowTile (c : Char) : List Char :=
  [c]

/-- Worker for the spec's bounding-box extent: elementwise min/max fold. -/
def boundingGo : (Nat × Nat) × (Nat × Nat) → List (Nat × Nat) → (Nat × Nat) × (Nat × Nat)
  | acc, [] => acc
  | acc, k :: rest =>
    boundingGo ((Nat.min acc.1.1 k.1, Nat.min acc.1.2 k.2),
                (Nat.max acc.2.1 k.1, Nat.max acc.2.2 k.2)) rest

/-- Modelled from the spec: the bounding-box extent convention of spec
section 4.1 (an inclusive elementwise `(min, max)` over the observed keys,
with the type's default coordinate as both bounds for an empty collection)
is absent from src/map.rs, which only carries the dense max-plus-one
convention; this definition follows the spec's words for the missing
query. -/
def pairBoundingExtent (keys : List (Nat × Nat)) : (Nat × Nat) × (Nat × Nat) :=
  match keys with
  | [] => (default, default)
  | k :: rest => boundingGo (k, k) rest

/-- Modelled from the spec: the bounding-box extent as an alternative query
operation on the container (spec sections 4.1 and 4.2). -/
def Map.bounding_extent {T : Type} (m : Map (Nat × Nat) T) : (Nat × Nat) × (Nat × Nat) :=
  pairBoundingExtent (m.data.map Prod.fst)

/-- Concrete 1-D map of the `test_1d_editing` trajectory after its three
inserts (src/map.rs lines 264-277). -/
def exMap1d : Map Nat Char :=
  { data := [(1, 'a'), (4, 'c'), (8, 'd')], fixed_extent := none }

/-- Concrete map for exercising the search operations. -/
def exMapF : Map Nat Char :=
  { data := [(0, 'a'), (1, 'b')], fixed_extent := none }

/-- Concrete map holding the keys (1,1) and (8,8) of spec section 8's
bounding-box example. -/
def exMapBB : Map (Nat × Nat) Char :=
  { data := [((1, 1), 'a'), ((8, 8), 'b')], fixed_extent := none }

/-- The 2-D example text of the tests and of spec section 8. -/
def exText : List Char :=
  "ab \nd e".toList

/-- The expected rendering of the 2-D example map (spec section 8). -/
def exRendered : List Char :=
  "ab \nd e\n".toList

theorem lookupKV_setKey_self {C T : Type} [DecidableEq C] (l : List (C × T)) (c : C) (v : T) :
    lookupKV (setKey l c v) c = some v := by
  induction l with
  | nil => simp [setKey, lookupKV]
  | cons kv rest ih =>
    by_cases h : kv.1 = c
    · simp [setKey, h, lookupKV]
    · simp [setKey, h, lookupKV, ih]

theorem lookupKV_removeKey_self {C T : Type} [DecidableEq C] (l : List (C × T)) (c : C) :
    lookupKV (removeKey l c) c = none := by
  induction l with
  | nil => simp [removeKey, lookupKV]
  | cons kv rest ih =>
    by_cases h : kv.1 = c
    · simp [removeKey, h, ih]
    · simp [removeKey, h, lookupKV, ih]

theorem setKey_setKey {C T : Type} [DecidableEq C] (l : List (C × T)) (c : C) (v w : T) :
    setKey (setKey l c v) c w = setKey l c w := by
  induction l with
  | nil => simp [setKey]
  | cons kv rest ih =>
    by_cases h : kv.1 = c
    · simp [setKey, h]
    · simp [setKey, h, ih]

theorem removeKey_of_lookup_none {C T : Type} [DecidableEq C] (l : List (C × T)) (c : C)
    (h : lookupKV l c = none) : removeKey l c = l := by
  induction l with
  | nil => simp [removeKey]
  | cons kv rest ih =>
    by_cases hk : kv.1 = c
    · simp [lookupKV, hk] at h
    · simp [lookupKV, hk] at h
      simp [removeKey, hk, ih h]

/-- C2: after `set(c, v)`, `get(c)` is `Some(v)`; after a subsequent
`remove(c)`, `get(c)` is `None`; setting an already-occupied coordinate
overwrites its cell; removing an absent coordinate leaves the map
unchanged. -/
theorem set_get_remove_contract {C T : Type} [DecidableEq C]
    (m : Map C T) (c : C) (v w : T) :
    (m.set c v).get c = some v ∧
    ((m.set c v).remove c).get c = none ∧
    (m.set c v).set c w = m.set c w ∧
    (m.get c = none → m.remove c = m) := by
  refine ⟨?_, ?_, ?_, ?_⟩
  · exact lookupKV_setKey_self m.data c v
  · exact lookupKV_removeKey_self (setKey m.data c v) c
  · simp [Map.set, setKey_setKey]
  · intro h
    simp [Map.remove, removeKey_of_lookup_none m.data c h]

/-- C2 witness: the contract applied to the empty map at coordinate 0. -/
theorem set_get_remove_contract_witness :
    ((Map.new : Map Nat Char).set 0 'a').get 0 = some 'a' ∧
    (((Map.new : Map Nat Char).set 0 'a').remove 0).get 0 = none ∧
    ((Map.new : Map Nat Char).set 0 'a').set 0 'b' = (Map.new : Map Nat Char).set 0 'b' ∧
    (Map.new : Map Nat Char).remove 0 = Map.new := by
  have h := set_get_remove_contract (Map.new : Map Nat Char) 0 'a' 'b'
  exact ⟨h.1, h.2.1, h.2.2.1, h.2.2.2 rfl⟩

/-- C9: `set` and `remove` touch only the `data` field, leaving the
`fixed_extent` override untouched. -/
theorem mutation_frame {C T : Type} [DecidableEq C] (m : Map C T) (c : C) (v : T) :
    (m.set c v).fixed_extent = m.fixed_extent ∧
    (m.remove c).fixed_extent = m.fixed_extent ∧
    (m.set c v).data = setKey m.data c v ∧
    (m.remove c).data = removeKey m.data c :=
  ⟨rfl, rfl, rfl, rfl⟩

/-- C10: a map whose entry list is empty renders as the empty string in
both the 1-D and 2-D renderers, whatever the fixed extent holds — the
emptiness check precedes the extent query. -/
theorem render_empty_entries {T : Type} (fe1 : Option Nat) (fe2 : Option (Nat × Nat))
    (s1 s2 : T → List Char) :
    Map.render1 { data := [], fixed_extent := fe1 } s1 = [] ∧
    Map.render2 { data := ([] : List ((Nat × Nat) × T)), fixed_extent := fe2 } s2 = [] :=
  ⟨rfl, rfl⟩

/-- C7: reading the text `"ab \nd e"` with the any-non-space-character
tile yields the dense grid `[[some a, some b, none], [some d, none,
some e]]`, renders back to `"ab \nd e\n"` (a newline after every row,
spaces for absent cells), and the empty map renders as nothing. -/
theorem round_trip_example :
    (read2 testFromChar exText).to_vecs2 =
      [[some 'a', some 'b', none], [some 'd', none, some 'e']] ∧
    (read2 testFromChar exText).render2 testShowTile = exRendered ∧
    (Map.new : Map (Nat × Nat) Char).render2 testShowTile = [] :=
  ⟨by decide, by decide, rfl⟩

/-- C3: `get_extent` returns the fixed extent verbatim when one is set;
otherwise it is recomputed from the current entries on every call, so a
query after a `set` or `remove` is the coordinate extent of the mutated
entry list. -/
theorem get_extent_no_caching {C T : Type} [MapCoordinate C] [DecidableEq C]
    (m : Map C T) (c : C) (v : T) (e : C) :
    (m.fixed_extent = some e → m.get_extent = e) ∧
    (m.fixed_extent = none →
      m.get_extent = MapCoordinate.get_extent (m.data.map Prod.fst)) ∧
    (m.fixed_extent = none →
      (m.set c v).get_extent = MapCoordinate.get_extent ((setKey m.data c v).map Prod.fst)) ∧
    (m.fixed_extent = none →
      (m.remove c).get_extent = MapCoordinate.get_extent ((removeKey m.data c).map Prod.fst)) := by
  refine ⟨?_, ?_, ?_, ?_⟩ <;> intro h <;> simp [Map.get_extent, Map.set, Map.remove, h]

/-- C3 witness: the 1-D editing trajectory of the tests — the extent of
the keys 1, 4, 8 is 9, and removing the maximal key 8 shrinks the next
extent query back to 5. -/
theorem get_extent_no_caching_witness :
    exMap1d.get_extent = 9 ∧ (exMap1d.remove 8).get_extent = 5 := by
  have h := get_extent_no_caching exMap1d 8 'x' 0
  constructor
  · rw [h.2.1 rfl]; decide
  · rw [h.2.2.2 rfl]; decide

theorem foldl_max_eq_foldr {l : List Nat} : ∀ a : Nat,
    l.foldl Nat.max a = Nat.max a (l.foldr Nat.max 0) := by
  induction l with
  | nil => intro a; simp
  | cons b rest ih =>
    intro a
    simp only [List.foldl_cons, List.foldr_cons, ih, Nat.max_assoc]

theorem foldr_max_succ {α : Type} (f : α → Nat) :
    ∀ l : List α, l ≠ [] →
      (l.map (fun k => f k + 1)).foldr Nat.max 0 = (l.map f).foldr Nat.max 0 + 1 := by
  intro l
  induction l with
  | nil => intro h; exact absurd rfl h
  | cons a rest ih =>
    intro _
    match rest with
    | [] => simp
    | b :: rest2 =>
      have ih2 := ih (by simp)
      simp only [List.map_cons, List.foldr_cons] at ih2 ⊢
      rw [ih2]
      exact Nat.add_max_add_right _ _ 1

theorem pairGetExtent_fst : ∀ (l : List (Nat × Nat)) (acc : Nat × Nat),
    (l.foldl (fun acc k => (Nat.max acc.1 (k.1 + 1), Nat.max acc.2 (k.2 + 1))) acc).1 =
      Nat.max acc.1 ((l.map (fun k => k.1 + 1)).foldr Nat.max 0) := by
  intro l
  induction l with
  | nil => intro acc; simp
  | cons k rest ih =>
    intro acc
    simp only [List.foldl_cons, List.map_cons, List.foldr_cons, ih, Nat.max_assoc]

theorem pairGetExtent_snd : ∀ (l : List (Nat × Nat)) (acc : Nat × Nat),
    (l.foldl (fun acc k => (Nat.max acc.1 (k.1 + 1), Nat.max acc.2 (k.2 + 1))) acc).2 =
      Nat.max acc.2 ((l.map (fun k => k.2 + 1)).foldr Nat.max 0) := by
  intro l
  induction l with
  | nil => intro acc; simp
  | cons k rest ih =>
    intro acc
    simp only [List.foldl_cons, List.map_cons, List.foldr_cons, ih, Nat.max_assoc]

/-- C4: under the dense-width convention, the extent of a non-empty key
collection is, per axis, the maximum observed component plus one; the
extent of an empty collection is the coordinate type's default (0 for 1-D,
(0, 0) for 2-D). -/
theorem dense_extent_max_plus_one (keys2 : List (Nat × Nat)) (keys1 : List Nat)
    (h2 : keys2 ≠ []) (h1 : keys1 ≠ []) :
    pairGetExtent keys2 =
      ((keys2.map Prod.fst).foldr Nat.max 0 + 1,
       (keys2.map Prod.snd).foldr Nat.max 0 + 1) ∧
    usizeGetExtent keys1 = keys1.foldr Nat.max 0 + 1 ∧
    pairGetExtent [] = (default : Nat × Nat) ∧
    usizeGetExtent [] = (default : Nat) := by
  refine ⟨?_, ?_, rfl, rfl⟩
  · have hf : (pairGetExtent keys2).1 = (keys2.map Prod.fst).foldr Nat.max 0 + 1 := by
      rw [pairGetExtent, pairGetExtent_fst keys2 (0, 0),
        foldr_max_succ Prod.fst keys2 h2]
      exact Nat.zero_max _
    have hs : (pairGetExtent keys2).2 = (keys2.map Prod.snd).foldr Nat.max 0 + 1 := by
      rw [pairGetExtent, pairGetExtent_snd keys2 (0, 0),
        foldr_max_succ Prod.snd keys2 h2]
      exact Nat.zero_max _
    conv_lhs => rw [← Prod.mk.eta (p := pairGetExtent keys2)]
    rw [hf, hs]
  · match keys1 with
    | a :: rest =>
      show (rest.foldl Nat.max a) + 1 = _
      rw [foldl_max_eq_foldr]
      rfl

/-- C4 witness: inserting the keys (1,2) and (4,1) yields the dense
extent (5, 3); a singleton 1-D key 3 yields extent 4. -/
theorem dense_extent_max_plus_one_witness :
    pairGetExtent [(1, 2), (4, 1)] = (5, 3) ∧ usizeGetExtent [3] = 4 := by
  have h := dense_extent_max_plus_one [(1, 2), (4, 1)] [3] (by decide) (by decide)
  exact ⟨h.1.trans (by decide), h.2.1.trans (by decide)⟩

theorem lookupKV_eq_none {C T : Type} [DecidableEq C] {l : List (C × T)} {c : C}
    (h : ∀ kv ∈ l, kv.1 ≠ c) : lookupKV l c = none := by
  induction l with
  | nil => rfl
  | cons kv rest ih =>
    have hk : kv.1 ≠ c := h kv (List.mem_cons_self kv rest)
    simp only [lookupKV, if_neg hk]
    exact ih (fun kv2 h2 => h kv2 (List.mem_cons_of_mem kv h2))

theorem lookupKV_append {C T : Type} [DecidableEq C] (l1 l2 : List (C × T)) (c : C) :
    lookupKV (l1 ++ l2) c = (lookupKV l1 c).or (lookupKV l2 c) := by
  induction l1 with
  | nil => simp [lookupKV]
  | cons kv rest ih =>
    by_cases h : kv.1 = c
    · simp [lookupKV, h]
    · simp [lookupKV, h, ih]

theorem readLineChars_keys {T : Type} (fc : Char → Option T) (i : Nat) :
    ∀ (l : List Char) (j0 : Nat), ∀ kv ∈ readLineChars fc i l j0, kv.1.1 = i ∧ j0 ≤ kv.1.2 := by
  intro l
  induction l with
  | nil => intro j0 kv h; simp [readLineChars] at h
  | cons c rest ih =>
    intro j0 kv h
    simp only [readLineChars] at h
    match hfc : fc c with
    | some t =>
      rw [hfc] at h
      rcases List.mem_cons.mp h with h1 | h1
      · subst h1; exact ⟨rfl, Nat.le_refl j0⟩
      · have := ih (j0 + 1) kv h1
        exact ⟨this.1, Nat.le_of_succ_le this.2⟩
    | none =>
      rw [hfc] at h
      have := ih (j0 + 1) kv h
      exact ⟨this.1, Nat.le_of_succ_le this.2⟩

theorem lookupKV_readLineChars {T : Type} (fc : Char → Option T) (i : Nat) :
    ∀ (l : List Char) (j0 j : Nat),
      lookupKV (readLineChars fc i l j0) (i, j0 + j) = (l[j]?).bind fc := by
  intro l
  induction l with
  | nil => intro j0 j; rfl
  | cons c rest ih =>
    intro j0 j
    simp only [readLineChars]
    match hfc : fc c with
    | some t =>
      match j with
      | 0 =>
        simp [lookupKV, hfc]
      | j2 + 1 =>
        have hne : ((i, j0) : Nat × Nat) ≠ (i, j0 + (j2 + 1)) := by
          intro hcontra
          have := congrArg Prod.snd hcontra
          omega
        simp only [lookupKV, if_neg hne, List.getElem?_cons_succ]
        have := ih (j0 + 1) j2
        rw [show j0 + (j2 + 1) = j0 + 1 + j2 by omega]
        exact this
    | none =>
      match j with
      | 0 =>
        rw [List.getElem?_cons_zero, Option.some_bind, hfc, Nat.add_zero]
        apply lookupKV_eq_none
        intro kv hmem
        have := readLineChars_keys fc i rest (j0 + 1) kv hmem
        intro hcontra
        rw [hcontra] at this
        omega
      | j2 + 1 =>
        rw [List.getElem?_cons_succ, show j0 + (j2 + 1) = j0 + 1 + j2 by omega]
        exact ih (j0 + 1) j2

theorem lookupKV_readLineChars_ne {T : Type} (fc : Char → Option T) {i i2 : Nat}
    (l : List Char) (j0 j : Nat) (h : i2 ≠ i) :
    lookupKV (readLineChars fc i l j0) (i2, j) = none := by
  apply lookupKV_eq_none
  intro kv hmem hcontra
  have hk := (readLineChars_keys fc i l j0 kv hmem).1
  rw [hcontra] at hk
  exact h hk

theorem readLinesKV_keys {T : Type} (fc : Char → Option T) :
    ∀ (lns : List (List Char)) (i0 : Nat), ∀ kv ∈ readLinesKV fc lns i0, i0 ≤ kv.1.1 := by
  intro lns
  induction lns with
  | nil => intro i0 kv h; simp [readLinesKV] at h
  | cons l rest ih =>
    intro i0 kv h
    simp only [readLinesKV] at h
    rcases List.mem_append.mp h with h1 | h1
    · exact Nat.le_of_eq (readLineChars_keys fc i0 l 0 kv h1).1.symm
    · exact Nat.le_of_succ_le (ih (i0 + 1) kv h1)

theorem lookupKV_readLinesKV {T : Type} (fc : Char → Option T) :
    ∀ (lns : List (List Char)) (i0 i j : Nat),
      lookupKV (readLinesKV fc lns i0) (i0 + i, j) =
        (lns[i]?).bind (fun l => (l[j]?).bind fc) := by
  intro lns
  induction lns with
  | nil => intro i0 i j; rfl
  | cons l rest ih =>
    intro i0 i j
    simp only [readLinesKV, lookupKV_append]
    match i with
    | 0 =>
      rw [List.getElem?_cons_zero, Option.some_bind, Nat.add_zero]
      have h1 : lookupKV (readLineChars fc i0 l 0) (i0, j) = (l[j]?).bind fc := by
        have := lookupKV_readLineChars fc i0 l 0 j
        rw [Nat.zero_add] at this
        exact this
      have h2 : lookupKV (readLinesKV fc rest (i0 + 1)) (i0, j) = none := by
        apply lookupKV_eq_none
        intro kv hmem hcontra
        have := readLinesKV_keys fc rest (i0 + 1) kv hmem
        rw [hcontra] at this
        omega
      rw [h1, h2, Option.or_none]
    | i2 + 1 =>
      rw [List.getElem?_cons_succ]
      have h1 : lookupKV (readLineChars fc i0 l 0) (i0 + (i2 + 1), j) = none :=
        lookupKV_readLineChars_ne fc l 0 j (by omega)
      rw [h1, Option.none_or, show i0 + (i2 + 1) = i0 + 1 + i2 by omega]
      exact ih (i0 + 1) i2 j

/-- C1: 2-D reading populates exactly the coordinates `(line index, column
index)` whose character decodes to a cell: `get (i, j)` on the constructed
map is the decoder applied to the character at column `j` of line `i`, so
it is `none` for every character decoding to none and for every coordinate
outside the text. -/
theorem read2_populates_by_line_and_column {T : Type} (fc : Char → Option T)
    (s : List Char) (i j : Nat) :
    (read2 fc s).get (i, j) = ((rustLines s)[i]?).bind (fun l => (l[j]?).bind fc) := by
  show lookupKV (readLinesKV fc (rustLines s) 0) (i, j) = _
  have := lookupKV_readLinesKV fc (rustLines s) 0 i j
  rw [Nat.zero_add] at this
  exact this

theorem readLinesE_ok_map {T : Type} (fc : Char → Option T) :
    ∀ (ls : List (List Char)) (i : Nat),
      readLinesE fc (ls.map Except.ok) i = Except.ok (readLinesKV fc ls i) := by
  intro ls
  induction ls with
  | nil => intro i; rfl
  | cons l rest ih =>
    intro i
    simp only [List.map_cons, readLinesE, ih, readLinesKV]

theorem readLinesE_error_mem {T : Type} (fc : Char → Option T) :
    ∀ (lns : List (Except String (List Char))) (i : Nat) (err : MapError),
      readLinesE fc lns i = Except.error err →
      ∃ e, err = MapError.ioErr e ∧ Except.error e ∈ lns := by
  intro lns
  induction lns with
  | nil => intro i err h; exact absurd h (by simp [readLinesE])
  | cons r rest ih =>
    intro i err h
    match r with
    | Except.error e =>
      simp only [readLinesE, Except.error.injEq] at h
      exact ⟨e, h.symm, List.mem_cons_self _ _⟩
    | Except.ok l =>
      simp only [readLinesE] at h
      match hrec : readLinesE fc rest (i + 1) with
      | Except.ok kvs => rw [hrec] at h; exact absurd h (by simp)
      | Except.error err2 =>
        rw [hrec] at h
        simp only [Except.error.injEq] at h
        subst h
        rcases ih (i + 1) err2 hrec with ⟨e, he, hmem⟩
        exact ⟨e, he, List.mem_cons_of_mem _ hmem⟩

/-- C6: the only failure of `read` is an I/O error from the stream,
surfaced as the `Io` variant of `MapError`; an all-ok stream yields the
fully populated map (never a partial one alongside an error), and the
error value on failure wraps an I/O failure actually present in the
stream. -/
theorem read_failure_atomic_io {T : Type} (fc : Char → Option T)
    (lns : List (Except String (List Char))) (ls : List (List Char)) :
    (lns = ls.map Except.ok →
      read2E fc lns = Except.ok { data := readLinesKV fc ls 0, fixed_extent := none }) ∧
    (∀ err, read2E fc lns = Except.error err →
      ∃ e, err = MapError.ioErr e ∧ Except.error e ∈ lns) := by
  constructor
  · intro h
    subst h
    simp only [read2E, readLinesE_ok_map]
  · intro err h
    rw [read2E] at h
    match hrec : readLinesE fc lns 0 with
    | Except.ok kvs => rw [hrec] at h; exact absurd h (by simp)
    | Except.error err2 =>
      rw [hrec] at h
      simp only [Except.error.injEq] at h
      subst h
      exact readLinesE_error_mem fc lns 0 err2 hrec

/-- C6 witness: an all-ok one-line stream yields the populated map, and a
stream whose first line read fails yields exactly the wrapped I/O error. -/
theorem read_failure_atomic_io_witness :
    read2E testFromChar [Except.ok ['a']] =
      Except.ok { data := [((0, 0), 'a')], fixed_extent := none } ∧
    (∃ e, MapError.ioErr "boom" = MapError.ioErr e ∧
      Except.error e ∈ [Except.error "boom", Except.ok ['a']]) := by
  constructor
  · exact ((read_failure_atomic_io testFromChar [Except.ok ['a']] [['a']]).1 rfl).trans rfl
  · exact (read_failure_atomic_io testFromChar [Except.error "boom", Except.ok ['a']] []).2
      (MapError.ioErr "boom") rfl

theorem mem_findAllWhereKV {C T : Type} (p : C → T → Bool) :
    ∀ (l : List (C × T)) (c : C),
      c ∈ findAllWhereKV p l ↔ ∃ t, (c, t) ∈ l ∧ p c t = true := by
  intro l
  induction l with
  | nil => intro c; simp [findAllWhereKV]
  | cons kv rest ih =>
    intro c
    rcases kv with ⟨a, b⟩
    by_cases hp : p a b = true
    · simp only [findAllWhereKV]
      rw [if_pos hp]
      simp only [List.mem_cons, ih, Prod.mk.injEq]
      constructor
      · rintro (rfl | ⟨t, ht, hpt⟩)
        · exact ⟨b, Or.inl ⟨rfl, rfl⟩, hp⟩
        · exact ⟨t, Or.inr ht, hpt⟩
      · rintro ⟨t, (⟨rfl, rfl⟩ | ht), hpt⟩
        · exact Or.inl rfl
        · exact Or.inr ⟨t, ht, hpt⟩
    · simp only [findAllWhereKV]
      rw [if_neg hp]
      simp only [ih, List.mem_cons, Prod.mk.injEq]
      constructor
      · rintro ⟨t, ht, hpt⟩
        exact ⟨t, Or.inr ht, hpt⟩
      · rintro ⟨t, (⟨rfl, rfl⟩ | ht), hpt⟩
        · exact absurd hpt hp
        · exact ⟨t, ht, hpt⟩

theorem findOneWhereKV_isSome {C T : Type} (p : C → T → Bool) :
    ∀ l : List (C × T),
      (findOneWhereKV p l).isSome = true ↔ ∃ kv ∈ l, p kv.1 kv.2 = true := by
  intro l
  induction l with
  | nil => simp [findOneWhereKV]
  | cons kv rest ih =>
    by_cases hp : p kv.1 kv.2 = true
    · simp only [findOneWhereKV]
      rw [if_pos hp]
      simp only [Option.isSome_some, true_iff]
      exact ⟨kv, List.mem_cons_self kv rest, hp⟩
    · simp only [findOneWhereKV]
      rw [if_neg hp, ih]
      constructor
      · rintro ⟨kv2, h2, hp2⟩
        exact ⟨kv2, List.mem_cons_of_mem kv h2, hp2⟩
      · rintro ⟨kv2, hmem, hp2⟩
        rcases List.mem_cons.mp hmem with rfl | h2
        · exact absurd hp2 hp
        · exact ⟨kv2, h2, hp2⟩

theorem findOneWhereKV_some_mem {C T : Type} (p : C → T → Bool) :
    ∀ (l : List (C × T)) (c : C),
      findOneWhereKV p l = some c → ∃ t, (c, t) ∈ l ∧ p c t = true := by
  intro l
  induction l with
  | nil => intro c h; exact absurd h (by simp [findOneWhereKV])
  | cons kv rest ih =>
    intro c h
    by_cases hp : p kv.1 kv.2 = true
    · rw [findOneWhereKV, if_pos hp, Option.some.injEq] at h
      subst h
      exact ⟨kv.2, List.mem_cons_self kv rest, hp⟩
    · rw [findOneWhereKV, if_neg hp] at h
      rcases ih c h with ⟨t, ht, hpt⟩
      exact ⟨t, List.mem_cons_of_mem kv ht, hpt⟩

theorem findOneWhereKV_unique {C T : Type} [DecidableEq T] (v : T) :
    ∀ (l : List (C × T)) (c : C),
      (l.filter (fun kv => decide (kv.2 = v))).map Prod.fst = [c] →
      findOneWhereKV (fun _ t => decide (t = v)) l = some c := by
  intro l
  induction l with
  | nil => intro c h; exact absurd h (by simp)
  | cons kv rest ih =>
    intro c h
    by_cases hv : kv.2 = v
    · rw [List.filter_cons_of_pos (by simp [hv]), List.map_cons, List.cons_eq_cons] at h
      rw [findOneWhereKV, if_pos (by simp [hv]), h.1]
    · rw [List.filter_cons_of_neg (by simp [hv])] at h
      rw [findOneWhereKV, if_neg (by simp [hv])]
      exact ih c h

theorem findOneWhereKV_no_match {C T : Type} [DecidableEq T] (v : T) :
    ∀ l : List (C × T),
      (∀ kv ∈ l, kv.2 ≠ v) → findOneWhereKV (fun _ t => decide (t = v)) l = none := by
  intro l
  induction l with
  | nil => intro _; rfl
  | cons kv rest ih =>
    intro h
    have hv : kv.2 ≠ v := h kv (List.mem_cons_self kv rest)
    rw [findOneWhereKV, if_neg (by simp [hv])]
    exact ih (fun kv2 h2 => h kv2 (List.mem_cons_of_mem kv h2))

/-- C8: `find_all_where` returns exactly the coordinates whose entry
satisfies the predicate; `find_one_where` returns something if and only if
some entry matches, and anything it returns matches; `find_one(v)` returns
the unique holder of `v` when there is exactly one, and nothing when there
is none. -/
theorem find_operations_contract {C T : Type} [DecidableEq C] [DecidableEq T]
    (m : Map C T) (p : C → T → Bool) (v : T) (c : C) :
    (c ∈ m.find_all_where p ↔ ∃ t, (c, t) ∈ m.data ∧ p c t = true) ∧
    ((m.find_one_where p).isSome = true ↔ ∃ kv ∈ m.data, p kv.1 kv.2 = true) ∧
    (∀ c2, m.find_one_where p = some c2 → ∃ t, (c2, t) ∈ m.data ∧ p c2 t = true) ∧
    ((m.data.filter (fun kv => decide (kv.2 = v))).map Prod.fst = [c] →
      m.find_one v = some c) ∧
    ((∀ kv ∈ m.data, kv.2 ≠ v) → m.find_one v = none) :=
  ⟨mem_findAllWhereKV p m.data c,
   findOneWhereKV_isSome p m.data,
   fun c2 => findOneWhereKV_some_mem p m.data c2,
   findOneWhereKV_unique v m.data c,
   findOneWhereKV_no_match v m.data⟩

/-- C8 witness: over the two-entry map {0 maps to a, 1 maps to b},
`find_one` of the uniquely held cell a returns its coordinate 0, `find_one`
of the absent cell z returns nothing, and `find_one_where` for cell b
finds something. -/
theorem find_operations_contract_witness :
    exMapF.find_one 'a' = some 0 ∧
    exMapF.find_one 'z' = none ∧
    (exMapF.find_one_where (fun _ t => decide (t = 'b'))).isSome = true := by
  refine ⟨?_, ?_, ?_⟩
  · exact (find_operations_contract exMapF (fun _ _ => true) 'a' 0).2.2.2.1 (by decide)
  · exact (find_operations_contract exMapF (fun _ _ => true) 'z' 0).2.2.2.2 (by decide)
  · exact (find_operations_contract exMapF (fun _ t => decide (t = 'b')) 'z' 0).2.1.mpr
      ⟨(1, 'b'), by decide, by decide⟩

theorem boundingGo_min1 : ∀ (l : List (Nat × Nat)) (acc : (Nat × Nat) × (Nat × Nat)),
    (boundingGo acc l).1.1 = (l.map Prod.fst).foldl Nat.min acc.1.1 := by
  intro l
  induction l with
  | nil => intro acc; rfl
  | cons k rest ih => intro acc; simp only [boundingGo, ih, List.map_cons, List.foldl_cons]

theorem boundingGo_min2 : ∀ (l : List (Nat × Nat)) (acc : (Nat × Nat) × (Nat × Nat)),
    (boundingGo acc l).1.2 = (l.map Prod.snd).foldl Nat.min acc.1.2 := by
  intro l
  induction l with
  | nil => intro acc; rfl
  | cons k rest ih => intro acc; simp only [boundingGo, ih, List.map_cons, List.foldl_cons]

theorem boundingGo_max1 : ∀ (l : List (Nat × Nat)) (acc : (Nat × Nat) × (Nat × Nat)),
    (boundingGo acc l).2.1 = (l.map Prod.fst).foldl Nat.max acc.2.1 := by
  intro l
  induction l with
  | nil => intro acc; rfl
  | cons k rest ih => intro acc; simp only [boundingGo, ih, List.map_cons, List.foldl_cons]

theorem boundingGo_max2 : ∀ (l : List (Nat × Nat)) (acc : (Nat × Nat) × (Nat × Nat)),
    (boundingGo acc l).2.2 = (l.map Prod.snd).foldl Nat.max acc.2.2 := by
  intro l
  induction l with
  | nil => intro acc; rfl
  | cons k rest ih => intro acc; simp only [boundingGo, ih, List.map_cons, List.foldl_cons]

theorem foldl_min_le : ∀ (l : List Nat) (a : Nat),
    l.foldl Nat.min a ≤ a ∧ ∀ x ∈ l, l.foldl Nat.min a ≤ x := by
  intro l
  induction l with
  | nil => intro a; exact ⟨Nat.le_refl a, by simp⟩
  | cons b rest ih =>
    intro a
    have h := ih (Nat.min a b)
    refine ⟨Nat.le_trans h.1 (Nat.min_le_left a b), ?_⟩
    intro x hx
    rcases List.mem_cons.mp hx with rfl | hx2
    · exact Nat.le_trans h.1 (Nat.min_le_right a x)
    · exact h.2 x hx2

theorem foldl_min_attained : ∀ (l : List Nat) (a : Nat),
    l.foldl Nat.min a = a ∨ l.foldl Nat.min a ∈ l := by
  intro l
  induction l with
  | nil => intro a; exact Or.inl rfl
  | cons b rest ih =>
    intro a
    rcases ih (Nat.min a b) with h | h
    · simp only [List.foldl_cons, h]
      rcases Nat.le_total a b with hab | hab
      · exact Or.inl (Nat.min_eq_left hab)
      · refine Or.inr ?_
        have hmb : Nat.min a b = b := Nat.min_eq_right hab
        rw [hmb]
        exact List.mem_cons_self b rest
    · exact Or.inr (List.mem_cons_of_mem b h)

theorem foldl_max_ge : ∀ (l : List Nat) (a : Nat),
    a ≤ l.foldl Nat.max a ∧ ∀ x ∈ l, x ≤ l.foldl Nat.max a := by
  intro l
  induction l with
  | nil => intro a; exact ⟨Nat.le_refl a, by simp⟩
  | cons b rest ih =>
    intro a
    have h := ih (Nat.max a b)
    refine ⟨Nat.le_trans (Nat.le_max_left a b) h.1, ?_⟩
    intro x hx
    rcases List.mem_cons.mp hx with rfl | hx2
    · exact Nat.le_trans (Nat.le_max_right a x) h.1
    · exact h.2 x hx2

theorem foldl_max_attained : ∀ (l : List Nat) (a : Nat),
    l.foldl Nat.max a = a ∨ l.foldl Nat.max a ∈ l := by
  intro l
  induction l with
  | nil => intro a; exact Or.inl rfl
  | cons b rest ih =>
    intro a
    rcases ih (Nat.max a b) with h | h
    · simp only [List.foldl_cons, h]
      rcases Nat.le_total a b with hab | hab
      · refine Or.inr ?_
        have hmb : Nat.max a b = b := Nat.max_eq_right hab
        rw [hmb]
        exact List.mem_cons_self b rest
      · exact Or.inl (Nat.max_eq_left hab)
    · exact Or.inr (List.mem_cons_of_mem b h)

/-- C5: the bounding-box extent query (modelled from the spec, absent from
src/map.rs) is correct: over a non-empty entry list its lower bound is
componentwise below every key and its upper bound componentwise above, and
every bound component is actually observed among the keys. -/
theorem bounding_extent_minmax {T : Type} (m : Map (Nat × Nat) T) (h : m.data ≠ []) :
    (∀ k ∈ m.data.map Prod.fst,
      m.bounding_extent.1.1 ≤ k.1 ∧ m.bounding_extent.1.2 ≤ k.2 ∧
      k.1 ≤ m.bounding_extent.2.1 ∧ k.2 ≤ m.bounding_extent.2.2) ∧
    (∃ k ∈ m.data.map Prod.fst, k.1 = m.bounding_extent.1.1) ∧
    (∃ k ∈ m.data.map Prod.fst, k.2 = m.bounding_extent.1.2) ∧
    (∃ k ∈ m.data.map Prod.fst, k.1 = m.bounding_extent.2.1) ∧
    (∃ k ∈ m.data.map Prod.fst, k.2 = m.bounding_extent.2.2) := by
  rcases hkeys : m.data.map Prod.fst with _ | ⟨k0, ks⟩
  · exact absurd (List.map_eq_nil_iff.mp hkeys) h
  · have hbe : m.bounding_extent = boundingGo (k0, k0) ks := by
      rw [Map.bounding_extent, hkeys, pairBoundingExtent]
    constructor
    · intro k hk
      rw [hbe, boundingGo_min1, boundingGo_min2, boundingGo_max1, boundingGo_max2]
      rcases List.mem_cons.mp hk with rfl | hk2
      · exact ⟨(foldl_min_le (ks.map Prod.fst) k.1).1,
          (foldl_min_le (ks.map Prod.snd) k.2).1,
          (foldl_max_ge (ks.map Prod.fst) k.1).1,
          (foldl_max_ge (ks.map Prod.snd) k.2).1⟩
      · exact ⟨(foldl_min_le (ks.map Prod.fst) k0.1).2 k.1 (List.mem_map_of_mem Prod.fst hk2),
          (foldl_min_le (ks.map Prod.snd) k0.2).2 k.2 (List.mem_map_of_mem Prod.snd hk2),
          (foldl_max_ge (ks.map Prod.fst) k0.1).2 k.1 (List.mem_map_of_mem Prod.fst hk2),
          (foldl_max_ge (ks.map Prod.snd) k0.2).2 k.2 (List.mem_map_of_mem Prod.snd hk2)⟩
    · rw [hbe, boundingGo_min1, boundingGo_min2, boundingGo_max1, boundingGo_max2]
      refine ⟨?_, ?_, ?_, ?_⟩
      · rcases foldl_min_attained (ks.map Prod.fst) k0.1 with he | he
        · exact ⟨k0, List.mem_cons_self k0 ks, he.symm⟩
        · rcases List.mem_map.mp he with ⟨k, hk, hk1⟩
          exact ⟨k, List.mem_cons_of_mem k0 hk, hk1⟩
      · rcases foldl_min_attained (ks.map Prod.snd) k0.2 with he | he
        · exact ⟨k0, List.mem_cons_self k0 ks, he.symm⟩
        · rcases List.mem_map.mp he with ⟨k, hk, hk2⟩
          exact ⟨k, List.mem_cons_of_mem k0 hk, hk2⟩
      · rcases foldl_max_attained (ks.map Prod.fst) k0.1 with he | he
        · exact ⟨k0, List.mem_cons_self k0 ks, he.symm⟩
        · rcases List.mem_map.mp he with ⟨k, hk, hk1⟩
          exact ⟨k, List.mem_cons_of_mem k0 hk, hk1⟩
      · rcases foldl_max_attained (ks.map Prod.snd) k0.2 with he | he
        · exact ⟨k0, List.mem_cons_self k0 ks, he.symm⟩
        · rcases List.mem_map.mp he with ⟨k, hk, hk2⟩
          exact ⟨k, List.mem_cons_of_mem k0 hk, hk2⟩

/-- C5 witness: the map holding the keys (1,1) and (8,8) has bounding-box
extent ((1,1), (8,8)), and the general correctness applies to it. -/
theorem bounding_extent_minmax_witness :
    exMapBB.bounding_extent = ((1, 1), (8, 8)) ∧
    (∀ k ∈ exMapBB.data.map Prod.fst,
      exMapBB.bounding_extent.1.1 ≤ k.1 ∧ exMapBB.bounding_extent.1.2 ≤ k.2 ∧
      k.1 ≤ exMapBB.bounding_extent.2.1 ∧ k.2 ≤ exMapBB.bounding_extent.2.2) :=
  ⟨by decide, (bounding_extent_minmax exMapBB (by decide)).1⟩

end Aoc
